import Mathlib

/-!
Verification of the BRAID text-preprocessing pipeline (`preprocessing.py`).

The Python program is embedded shallowly: each method of the `Preprocessing`
class becomes a Lean function on `String` / `List String`; the two regexes of
`remove_punctuation` become character-list scans; the pandas column operations
become `List.map`; the token/type accounting dictionaries become association
lists.  External linguistic resources (the NLTK stopword list, stemmer and
lemmatizer) are parameters, as they are black boxes to the program.
-/

namespace Braid

/-- Model of the regex class `\w` (ASCII fragment): alphanumeric or underscore. -/
def isWordChar (c : Char) : Bool := c.isAlphanum || c = '_'

/-- Word-character test on an optional character; `none` stands for the string
boundary, where the lookaround `(?<!\w)` / `(?!\w)` succeeds. -/
def optWord : Option Char → Bool
  | none => false
  | some c => isWordChar c

/-- Keep-decision of the substitution regex `(?<!\w)-(?!\w)|[^\w\s-]` for one
character: a hyphen is kept iff a word character is adjacent on at least one
side (otherwise the first alternative matches and deletes it); any other
character is kept iff it is a word character or whitespace (otherwise the
class `[^\w\s-]` matches and deletes it). -/
def keepB (pw : Bool) (c : Char) (nw : Bool) : Bool :=
  if c = '-' then pw || nw else isWordChar c || c.isWhitespace

/-- `keepB` with the neighbours given as optional characters. -/
def keepChar (prev : Option Char) (c : Char) (next : Option Char) : Bool :=
  keepB (optWord prev) c (optWord next)

/-- One left-to-right pass of `re.sub(r'(?<!\w)-(?!\w)|[^\w\s-]', '', s)`.
All matches have length one, so the scan decides each character from its
original neighbours; `prev` is the previous character of the *original*
string (lookbehind inspects the input, not the partially built output). -/
def punctSubAux : Option Char → List Char → List Char
  | _, [] => []
  | prev, c :: t =>
    if keepChar prev c t.head? then c :: punctSubAux (some c) t
    else punctSubAux (some c) t

/-- Model of `re.sub(r"\s{2}", ' ', s)`: scan left to right, replacing each
non-overlapping pair of whitespace characters by a single space. -/
def collapseAux : List Char → List Char
  | [] => []
  | [c] => [c]
  | c :: d :: t =>
    if c.isWhitespace && d.isWhitespace then ' ' :: collapseAux t
    else c :: collapseAux (d :: t)

/-- `Preprocessing.remove_punctuation` applied to one cell: the punctuation
substitution followed by the double-space collapse. -/
def remove_punctuation (s : String) : String :=
  ⟨collapseAux (punctSubAux none s.data)⟩

/-- `Preprocessing.lowercase` applied to one cell (`str.lower`, ASCII fragment). -/
def lowercase (s : String) : String :=
  ⟨s.data.map Char.toLower⟩

/-- `Preprocessing.remove_numbers` applied to one cell:
`re.sub(r'\d+', '', x)` deletes exactly the decimal-digit characters. -/
def remove_numbers (s : String) : String :=
  ⟨s.data.filter (fun c => !c.isDigit)⟩

/-- Helper for `pySplit`: `acc` holds the reversed current word. -/
def splitWSAux : List Char → List Char → List (List Char)
  | [], acc => if acc.isEmpty then [] else [acc.reverse]
  | c :: t, acc =>
    if c.isWhitespace then
      if acc.isEmpty then splitWSAux t [] else acc.reverse :: splitWSAux t []
    else splitWSAux t (c :: acc)

/-- Python's `str.split()` with no argument: split on whitespace runs,
producing no empty tokens. -/
def pySplit (s : String) : List (List Char) :=
  splitWSAux s.data []

/-- `w.lower()` on a token. -/
def lowerToken (w : List Char) : List Char :=
  w.map Char.toLower

/-- `' '.join(ws)` on a token list. -/
def joinSpace (ws : List (List Char)) : List Char :=
  List.intercalate [' '] ws

/-- `remove_stop_words` inner helper of `Preprocessing.remove_stopwords`:
drop the tokens whose lowercased form is in the (abstract) stopword list,
rejoin with single spaces. -/
def remove_stop_words (stopList : List (List Char)) (phrase : String) : String :=
  ⟨joinSpace ((pySplit phrase).filter (fun w => !stopList.contains (lowerToken w)))⟩

/-- `stem_phrase` inner helper of `Preprocessing.stem_words`, over an abstract
stemmer. -/
def stem_phrase (stemmer : List Char → List Char) (phrase : String) : String :=
  ⟨joinSpace ((pySplit phrase).map stemmer)⟩

/-- `lemmatize_phrase` inner helper of `Preprocessing.lemmatize_words`, over an
abstract lemmatizer. -/
def lemmatize_phrase (lem : List Char → List Char) (phrase : String) : String :=
  ⟨joinSpace ((pySplit phrase).map lem)⟩

/-! Column-level operations.  Each method of the class rewrites the designated
text column with `Series.apply` / `Series.str.*`, i.e. an element-wise map. -/

/-- `Preprocessing.lowercase` on the text column. -/
def lowercase_col (col : List String) : List String := col.map lowercase

/-- `Preprocessing.remove_numbers` on the text column. -/
def remove_numbers_col (col : List String) : List String := col.map remove_numbers

/-- `Preprocessing.remove_punctuation` on the text column. -/
def remove_punctuation_col (col : List String) : List String := col.map remove_punctuation

/-- `Preprocessing.remove_stopwords` on the text column. -/
def remove_stopwords_col (stopList : List (List Char)) (col : List String) : List String :=
  col.map (remove_stop_words stopList)

/-- `Preprocessing.stem_words` on the text column. -/
def stem_words_col (stemmer : List Char → List Char) (col : List String) : List String :=
  col.map (stem_phrase stemmer)

/-- `Preprocessing.lemmatize_words` on the text column. -/
def lemmatize_words_col (lem : List Char → List Char) (col : List String) : List String :=
  col.map (lemmatize_phrase lem)

/-! Token accounting (`count_types_and_tokens`) and bag of words (`create_bow`). -/

/-- Increment the dictionary count of token `t`, inserting it with count 1 at
first occurrence (the `self.all_tokens` update). -/
def bump : List (List Char × Nat) → List Char → List (List Char × Nat)
  | [], t => [(t, 1)]
  | (k, v) :: rest, t => if k = t then (k, v + 1) :: rest else (k, v) :: bump rest t

/-- Add token `t` to the set of types (`self.types.add`). -/
def addType (s : List (List Char)) (t : List Char) : List (List Char) :=
  if t ∈ s then s else t :: s

/-- Process one token: record it in the frequency dictionary and the type set. -/
def addToken (st : List (List Char × Nat) × List (List Char)) (t : List Char) :
    List (List Char × Nat) × List (List Char) :=
  (bump st.1 t, addType st.2 t)

/-- `Preprocessing.count_types_and_tokens`: walk the column row by row,
whitespace-tokenizing each row and accumulating the token frequency map and
the type set, both initially empty. -/
def count_types_and_tokens (col : List String) :
    List (List Char × Nat) × List (List Char) :=
  col.foldl (fun st row => (pySplit row).foldl addToken st) ([], [])

/-- All whitespace-split tokens of the column, in row-major order. -/
def allTokens (col : List String) : List (List Char) :=
  (col.map pySplit).flatten

/-- Sum of the counts of a frequency map. -/
def sumCounts (m : List (List Char × Nat)) : Nat :=
  (m.map (fun p => p.2)).sum

/-- Dictionary lookup in the frequency map. -/
def findCount : List (List Char × Nat) → List Char → Option Nat
  | [], _ => none
  | (k, v) :: rest, t => if k = t then some v else findCount rest t

/-- Insert into a list sorted by non-increasing count, stably. -/
def insertDesc (x : List Char × Nat) : List (List Char × Nat) → List (List Char × Nat)
  | [] => [x]
  | y :: t => if y.2 < x.2 then x :: y :: t else y :: insertDesc x t

/-- Sort by non-increasing count. -/
def sortDesc (l : List (List Char × Nat)) : List (List Char × Nat) :=
  l.foldr insertDesc []

/-- Number of occurrences of a token in a token sequence. -/
def countOcc : List (List Char) → List Char → Nat
  | [], _ => 0
  | x :: r, k => (if x = k then 1 else 0) + countOcc r k

/-- `Series.value_counts()`: one entry per distinct value with its number of
occurrences, sorted by descending count (tie order is unspecified by pandas;
this model keeps insertion order among ties). -/
def value_counts (ts : List (List Char)) : List (List Char × Nat) :=
  sortDesc (ts.dedup.map (fun k => (k, countOcc ts k)))

/-- `Preprocessing.create_bow`: whole-column whitespace tokenization
(`str.split(expand=True).stack()`) followed by `value_counts`. -/
def create_bow (col : List String) : List (List Char × Nat) :=
  value_counts (allTokens col)

/-! Configuration and control flow. -/

/-- The three boolean command-line flags. -/
structure CmdFlags where
  stop : Bool
  stem : Bool
  lemmaFlag : Bool
deriving DecidableEq, Repr

/-- Abnormal termination of the program. `argparse` reports a mutually
exclusive flag conflict and exits with status 2; the specification calls this
a `ConfigurationError`. -/
inductive ProgError where
  | ConfigurationError (exitStatus : Nat)
deriving DecidableEq, Repr

/-- The exit status carried by an error. -/
def exitStatusOf : ProgError → Nat
  | .ConfigurationError n => n

/-- `Preprocessing.parse_args`: `--stem` and `--lemma` are registered in an
`add_mutually_exclusive_group`, so requesting both makes `argparse` error out
(exit status 2) before the parsed arguments are returned. -/
def parse_args (f : CmdFlags) : Except ProgError CmdFlags :=
  if f.stem && f.lemmaFlag then .error (.ConfigurationError 2) else .ok f

/-- `Preprocessing.main`: the fixed sequence of column transforms, the three
optional ones gated by their flags. -/
def pipeline (f : CmdFlags) (stopList : List (List Char))
    (stemmer lem : List Char → List Char) (col : List String) : List String :=
  let c1 := lowercase_col col
  let c2 := remove_numbers_col c1
  let c3 := remove_punctuation_col c2
  let c4 := if f.stop then remove_stopwords_col stopList c3 else c3
  let c5 := if f.stem then stem_words_col stemmer c4 else c4
  let c6 := if f.lemmaFlag then lemmatize_words_col lem c5 else c5
  c6

/-- The whole program on the text column: `__init__` parses the arguments
(aborting on a flag conflict) before the CSV is read, then `main` runs the
pipeline. -/
def programRun (f : CmdFlags) (stopList : List (List Char))
    (stemmer lem : List Char → List Char) (csv : List String) :
    Except ProgError (List String) :=
  match parse_args f with
  | .error e => .error e
  | .ok args => .ok (pipeline args stopList stemmer lem csv)

/-- The six pipeline stages, as names. -/
inductive Stage where
  | lower
  | nums
  | punct
  | stop
  | stem
  | lemmaS
deriving DecidableEq, Repr

/-- The sequence of stages `Preprocessing.main` executes for a given flag
configuration, in program order. -/
def mainStages (f : CmdFlags) : List Stage :=
  [.lower, .nums, .punct]
    ++ (if f.stop then [.stop] else [])
    ++ (if f.stem then [.stem] else [])
    ++ (if f.lemmaFlag then [.lemmaS] else [])

/-- Column semantics of each stage. -/
def stageFun (stopList : List (List Char)) (stemmer lem : List Char → List Char) :
    Stage → List String → List String
  | .lower => lowercase_col
  | .nums => remove_numbers_col
  | .punct => remove_punctuation_col
  | .stop => remove_stopwords_col stopList
  | .stem => stem_words_col stemmer
  | .lemmaS => lemmatize_words_col lem

/-- Per-row semantics of each stage. -/
def rowFun (stopList : List (List Char)) (stemmer lem : List Char → List Char) :
    Stage → String → String
  | .lower => lowercase
  | .nums => remove_numbers
  | .punct => remove_punctuation
  | .stop => remove_stop_words stopList
  | .stem => stem_phrase stemmer
  | .lemmaS => lemmatize_phrase lem

/-! Declarative characterization of the punctuation substitution: each
character is kept or deleted according to `keepChar` applied to its neighbours
at its position in the *original* string. -/

/-- Position-wise reading of the substitution regex, generalized over the
character standing before position 0 (`prev`). -/
def punctSpecFrom (prev : Option Char) (s : List Char) : List Char :=
  (List.range s.length).filterMap (fun i =>
    (s[i]?).bind (fun x =>
      if keepChar (if i = 0 then prev else s[i - 1]?) x (s[i + 1]?) then some x
      else none))

/-- Position-wise reading of the substitution regex: character `i` of `s` is
kept iff `keepChar` holds of it and its neighbours at positions `i - 1` and
`i + 1` of `s`, i.e. word characters and whitespace are always kept, a hyphen
is kept iff a word character stands directly on at least one of its two sides,
and everything else is deleted. -/
def punctSpec (s : List Char) : List Char :=
  punctSpecFrom none s

theorem punctSubAux_eq_punctSpecFrom (s : List Char) :
    ∀ prev, punctSubAux prev s = punctSpecFrom prev s := by
  induction s with
  | nil => intro prev; rfl
  | cons c t ih =>
    intro prev
    unfold punctSpecFrom
    rw [List.length_cons, List.range_succ_eq_map, List.filterMap_cons, List.filterMap_map]
    have htail :
        (List.range t.length).filterMap
            ((fun i => ((c :: t)[i]?).bind (fun x =>
              if keepChar (if i = 0 then prev else (c :: t)[i - 1]?) x ((c :: t)[i + 1]?)
              then some x else none)) ∘ Nat.succ)
          = punctSpecFrom (some c) t := by
      unfold punctSpecFrom
      congr 1
      funext i
      cases i with
      | zero => simp
      | succ j => simp
    rw [htail, ← ih (some c)]
    simp only [List.getElem?_cons_zero, List.getElem?_cons_succ, Option.some_bind, if_true,
      ← List.head?_eq_getElem?]
    cases hk : keepChar prev c t.head? <;> simp [punctSubAux, hk]

/-! Helper lemmas. -/

theorem toLower_toLower (c : Char) : c.toLower.toLower = c.toLower := by
  simp only [Char.toLower]
  by_cases h : c.toNat ≥ 65 ∧ c.toNat ≤ 90
  · rw [if_pos h]
    have hval : (Char.ofNat (c.toNat + 32)).toNat = c.toNat + 32 := by
      have hv : (c.toNat + 32).isValidChar := Or.inl (by omega)
      simp only [Char.ofNat]
      rw [dif_pos hv]
      rfl
    rw [if_neg (by rw [hval]; omega)]
  · rw [if_neg h, if_neg h]

theorem ws_not_word {c : Char} (h : c.isWhitespace = true) : isWordChar c = false := by
  have h2 : ((c = ' ' ∨ c = '\t') ∨ c = '\r') ∨ c = '\n' := by
    simpa [Char.isWhitespace] using h
  rcases h2 with ((h2 | h2) | h2) | h2 <;> subst h2 <;> rfl

theorem ws_ne_underscore {c : Char} (h : c.isWhitespace = true) : c ≠ '_' := by
  intro he
  subst he
  exact absurd h (by decide)

/-- An underscore always survives the punctuation substitution: it is a word
character, so neither alternative of the regex matches it. -/
theorem punctSubAux_count_underscore (l : List Char) :
    ∀ prev, (punctSubAux prev l).count '_' = l.count '_' := by
  induction l with
  | nil => intro prev; rfl
  | cons c t ih =>
    intro prev
    by_cases h : keepChar prev c t.head? = true
    · simp [punctSubAux, h, List.count_cons, ih]
    · have hc : keepChar prev c t.head? = false := by
        revert h; cases keepChar prev c t.head? <;> simp
      have hne : c ≠ '_' := by
        intro he
        subst he
        revert hc
        simp [keepChar, keepB, isWordChar]
      simp [punctSubAux, hc, ih, List.count_cons, hne]

/-- The double-space collapse never touches underscores (only whitespace). -/
theorem collapseAux_count_underscore (l : List Char) :
    (collapseAux l).count '_' = l.count '_' := by
  induction l using collapseAux.induct with
  | case1 => rfl
  | case2 c => rfl
  | case3 c d t hws ih =>
    have hb : c.isWhitespace = true ∧ d.isWhitespace = true := by
      simpa using hws
    rw [collapseAux, if_pos hws]
    simp [List.count_cons, ih, ws_ne_underscore hb.1, ws_ne_underscore hb.2,
      (by decide : (' ' : Char) ≠ '_')]
  | case4 c d t hws ih =>
    rw [collapseAux, if_neg hws]
    simp [List.count_cons, ih]

/-! Lemmas about the token accountant and the bag of words. -/

theorem foldl_pySplit_flatten {β : Type} (g : β → List Char → β) (col : List String) :
    ∀ init : β, col.foldl (fun st row => (pySplit row).foldl g st) init
      = (allTokens col).foldl g init := by
  induction col with
  | nil => intro init; rfl
  | cons r rest ih =>
    intro init
    have hall : allTokens (r :: rest) = pySplit r ++ allTokens rest := by
      simp [allTokens]
    rw [hall, List.foldl_append]
    exact ih ((pySplit r).foldl g init)

theorem foldl_addToken_fst (ts : List (List Char)) :
    ∀ st : List (List Char × Nat) × List (List Char),
      (ts.foldl addToken st).1 = ts.foldl bump st.1 := by
  induction ts with
  | nil => intro st; rfl
  | cons t r ih => intro st; exact ih (addToken st t)

theorem foldl_addToken_snd (ts : List (List Char)) :
    ∀ st : List (List Char × Nat) × List (List Char),
      (ts.foldl addToken st).2 = ts.foldl addType st.2 := by
  induction ts with
  | nil => intro st; rfl
  | cons t r ih => intro st; exact ih (addToken st t)

/-- The nested fold of `count_types_and_tokens` equals independent folds of
the dictionary update and the set update over the flat token sequence. -/
theorem count_types_and_tokens_eq (col : List String) :
    count_types_and_tokens col
      = ((allTokens col).foldl bump [], (allTokens col).foldl addType []) := by
  have h := foldl_pySplit_flatten addToken col ([], [])
  have h1 := foldl_addToken_fst (allTokens col) ([], [])
  have h2 := foldl_addToken_snd (allTokens col) ([], [])
  unfold count_types_and_tokens
  rw [h]
  exact Prod.ext h1 h2

theorem sumCounts_bump (m : List (List Char × Nat)) (t : List Char) :
    sumCounts (bump m t) = sumCounts m + 1 := by
  induction m with
  | nil => rfl
  | cons p rest ih =>
    obtain ⟨k, v⟩ := p
    by_cases h : k = t
    · simp [bump, h, sumCounts]
      omega
    · simp [bump, h, sumCounts] at ih ⊢
      omega

theorem sumCounts_foldl_bump (ts : List (List Char)) :
    ∀ m, sumCounts (ts.foldl bump m) = sumCounts m + ts.length := by
  induction ts with
  | nil => intro m; rfl
  | cons t r ih =>
    intro m
    rw [List.foldl_cons, ih (bump m t), sumCounts_bump, List.length_cons]
    omega

theorem findCount_bump (m : List (List Char × Nat)) (u t : List Char) :
    findCount (bump m u) t
      = if u = t then some ((findCount m u).getD 0 + 1) else findCount m t := by
  induction m with
  | nil =>
    by_cases h : u = t <;> simp [bump, findCount, h]
  | cons p rest ih =>
    obtain ⟨k, v⟩ := p
    by_cases hk : k = u
    · subst hk
      by_cases ht : k = t
      · subst ht
        simp [bump, findCount]
      · simp [bump, findCount, ht]
    · by_cases ht : k = t
      · subst ht
        have hut : ¬u = k := fun h => hk h.symm
        simp [bump, hk, findCount, hut]
      · simp [bump, hk, findCount, ht, ih]

theorem findCount_foldl_bump (ts : List (List Char)) :
    ∀ (m : List (List Char × Nat)) (t : List Char),
      findCount (ts.foldl bump m) t
        = match findCount m t with
          | some v => some (v + countOcc ts t)
          | none => if t ∈ ts then some (countOcc ts t) else none := by
  induction ts with
  | nil =>
    intro m t
    cases h : findCount m t <;> simp [h, countOcc]
  | cons u r ih =>
    intro m t
    rw [List.foldl_cons, ih (bump m u) t, findCount_bump]
    by_cases hut : u = t
    · subst hut
      cases h : findCount m u with
      | none => simp [h, countOcc, List.mem_cons]
      | some v =>
        simp [h, countOcc, List.mem_cons]
        omega
    · have htu : t ≠ u := fun h => hut h.symm
      rw [if_neg hut]
      cases h : findCount m t <;>
        simp [h, countOcc, List.mem_cons, htu, hut]

theorem countOcc_eq_zero {l : List (List Char)} {k : List Char} (h : k ∉ l) :
    countOcc l k = 0 := by
  induction l with
  | nil => rfl
  | cons a t ih =>
    simp only [List.mem_cons, not_or] at h
    have hak : a ≠ k := fun he => h.1 he.symm
    simp [countOcc, hak, ih h.2]

theorem sum_indicator_nodup (a : List Char) (s : List (List Char)) (hs : s.Nodup) :
    (s.map (fun x => if a = x then (1 : Nat) else 0)).sum = if a ∈ s then 1 else 0 := by
  induction s with
  | nil => rfl
  | cons b t ih =>
    have hbt : b ∉ t := (List.nodup_cons.mp hs).1
    have ht := ih (List.nodup_cons.mp hs).2
    by_cases hab : a = b
    · subst hab
      simp [ht, hbt]
    · simp [hab, ht, List.mem_cons]

theorem sum_map_add_nat (f g : List Char → Nat) (l : List (List Char)) :
    (l.map (fun x => f x + g x)).sum = (l.map f).sum + (l.map g).sum := by
  induction l with
  | nil => rfl
  | cons a t ih =>
    simp [ih]
    omega

/-- The occurrence counts of the distinct elements of a list sum to its
length. -/
theorem sum_map_countOcc_dedup (l : List (List Char)) :
    (l.dedup.map (fun x => countOcc l x)).sum = l.length := by
  induction l with
  | nil => rfl
  | cons a t ih =>
    have hsplit : (fun x => countOcc (a :: t) x)
        = (fun x => countOcc t x + (if a = x then 1 else 0)) := by
      funext x
      simp [countOcc]
      omega
    by_cases hmem : a ∈ t
    · rw [List.dedup_cons_of_mem hmem, hsplit, sum_map_add_nat, ih,
        sum_indicator_nodup a t.dedup (List.nodup_dedup t),
        if_pos (List.mem_dedup.mpr hmem)]
      rfl
    · rw [List.dedup_cons_of_not_mem hmem, List.map_cons, List.sum_cons, hsplit,
        sum_map_add_nat, ih, sum_indicator_nodup a t.dedup (List.nodup_dedup t),
        if_neg (fun hc => hmem (List.mem_dedup.mp hc)), List.length_cons]
      have hz : countOcc t a = 0 := countOcc_eq_zero hmem
      simp [countOcc, hz]
      omega

theorem foldl_addType_nodup (ts : List (List Char)) :
    ∀ s : List (List Char), s.Nodup → (ts.foldl addType s).Nodup := by
  induction ts with
  | nil => intro s hs; exact hs
  | cons t r ih =>
    intro s hs
    refine ih (addType s t) ?_
    unfold addType
    by_cases h : t ∈ s
    · rw [if_pos h]
      exact hs
    · rw [if_neg h]
      exact List.nodup_cons.mpr ⟨h, hs⟩

theorem toFinset_addType (s : List (List Char)) (t : List Char) :
    (addType s t).toFinset = insert t s.toFinset := by
  unfold addType
  by_cases h : t ∈ s
  · rw [if_pos h, Finset.insert_eq_self.mpr (List.mem_toFinset.mpr h)]
  · rw [if_neg h, List.toFinset_cons]

theorem foldl_addType_toFinset (ts : List (List Char)) :
    ∀ s : List (List Char), (ts.foldl addType s).toFinset = s.toFinset ∪ ts.toFinset := by
  induction ts with
  | nil => intro s; simp
  | cons t r ih =>
    intro s
    rw [List.foldl_cons, ih (addType s t), toFinset_addType, List.toFinset_cons,
      Finset.insert_union, Finset.union_insert]

theorem insertDesc_perm (x : List Char × Nat) (l : List (List Char × Nat)) :
    (insertDesc x l).Perm (x :: l) := by
  induction l with
  | nil => exact List.Perm.refl _
  | cons y t ih =>
    unfold insertDesc
    by_cases h : y.2 < x.2
    · rw [if_pos h]
    · rw [if_neg h]
      exact (ih.cons y).trans (List.Perm.swap x y t)

theorem sortDesc_perm (l : List (List Char × Nat)) : (sortDesc l).Perm l := by
  induction l with
  | nil => exact List.Perm.refl _
  | cons x t ih =>
    exact (insertDesc_perm x (sortDesc t)).trans (ih.cons x)

theorem chain'_insertDesc (x : List Char × Nat) (l : List (List Char × Nat))
    (hl : List.Chain' (fun a b => b.2 ≤ a.2) l) :
    List.Chain' (fun a b => b.2 ≤ a.2) (insertDesc x l) := by
  induction l with
  | nil => exact List.chain'_singleton x
  | cons y t ih =>
    unfold insertDesc
    by_cases h : y.2 < x.2
    · rw [if_pos h]
      exact List.chain'_cons.mpr ⟨Nat.le_of_lt h, hl⟩
    · rw [if_neg h]
      have hyt := (List.chain'_cons'.mp hl).2
      have hhd := (List.chain'_cons'.mp hl).1
      refine List.chain'_cons'.mpr ⟨?_, ih hyt⟩
      intro z hz
      cases t with
      | nil =>
        have hzx : x = z := by simpa [insertDesc] using hz
        subst hzx
        exact Nat.le_of_not_lt h
      | cons w t' =>
        unfold insertDesc at hz
        by_cases hw : w.2 < x.2
        · rw [if_pos hw] at hz
          have hzx : x = z := by simpa using hz
          subst hzx
          exact Nat.le_of_not_lt h
        · rw [if_neg hw] at hz
          have hzw : w = z := by simpa using hz
          subst hzw
          exact hhd w rfl

theorem sortDesc_chain' (l : List (List Char × Nat)) :
    List.Chain' (fun a b => b.2 ≤ a.2) (sortDesc l) := by
  induction l with
  | nil => exact List.chain'_nil
  | cons x t ih => exact chain'_insertDesc x (sortDesc t) ih

/-! Idempotence analysis of `remove_punctuation`.  `goodFrom pw l` says every
character of `l` would be kept by the substitution regex were the scan started
with previous-character-is-word-character = `pw`; the substitution output is
always good, the space collapse preserves goodness, and the substitution is
the identity on good strings, so a second application of
`remove_punctuation` can only differ through the space collapse. -/

/-- No two consecutive whitespace characters. -/
def noDoubleWS : List Char → Bool
  | c :: d :: t => !(c.isWhitespace && d.isWhitespace) && noDoubleWS (d :: t)
  | _ => true

/-- Every character survives the substitution scan started with previous
word-character status `pw`. -/
def goodFrom (pw : Bool) : List Char → Bool
  | [] => true
  | c :: t => keepB pw c (optWord t.head?) && goodFrom (isWordChar c) t

theorem collapseAux_of_noDouble (l : List Char) :
    noDoubleWS l = true → collapseAux l = l := by
  induction l using collapseAux.induct with
  | case1 => intro h; rfl
  | case2 c => intro h; rfl
  | case3 c d t hws ih =>
    intro h
    rw [noDoubleWS] at h
    simp [hws] at h
  | case4 c d t hws ih =>
    intro h
    rw [noDoubleWS, Bool.and_eq_true] at h
    rw [collapseAux, if_neg hws, ih h.2]

theorem keepB_mono {c : Char} {nw : Bool} (h : keepB false c nw = true) (pw : Bool) :
    keepB pw c nw = true := by
  unfold keepB at h ⊢
  by_cases hc : c = '-'
  · rw [if_pos hc] at h ⊢
    simp at h
    simp [h]
  · rw [if_neg hc] at h ⊢
    exact h

theorem goodFrom_mono {l : List Char} (h : goodFrom false l = true) (pw : Bool) :
    goodFrom pw l = true := by
  cases l with
  | nil => rfl
  | cons c t =>
    rw [goodFrom, Bool.and_eq_true] at h ⊢
    exact ⟨keepB_mono h.1 pw, h.2⟩

/-- A word character is always kept, whatever its neighbours. -/
theorem punctSubAux_word_head {d : Char} (hd : isWordChar d = true) (t : List Char)
    (prev : Option Char) : punctSubAux prev (d :: t) = d :: punctSubAux (some d) t := by
  have hne : d ≠ '-' := by
    intro he
    subst he
    exact absurd hd (by decide)
  have hk : keepChar prev d t.head? = true := by
    unfold keepChar keepB
    rw [if_neg hne, hd]
    rfl
  rw [punctSubAux, if_pos hk]

/-- The substitution scan produces a good string. -/
theorem goodFrom_punctSubAux (l : List Char) :
    ∀ prev, goodFrom (optWord prev) (punctSubAux prev l) = true := by
  induction l with
  | nil => intro prev; rfl
  | cons c t ih =>
    intro prev
    cases hk : keepChar prev c t.head? with
    | false =>
      rw [punctSubAux, if_neg (by simp [hk])]
      have hcw : isWordChar c = false := by
        by_cases hc : c = '-'
        · subst hc
          decide
        · unfold keepChar keepB at hk
          rw [if_neg hc] at hk
          exact (Bool.or_eq_false_iff.mp hk).1
      have h1 := ih (some c)
      rw [show optWord (some c) = isWordChar c from rfl, hcw] at h1
      exact goodFrom_mono h1 (optWord prev)
    | true =>
      rw [punctSubAux, if_pos hk]
      rw [goodFrom, Bool.and_eq_true]
      refine ⟨?_, ih (some c)⟩
      by_cases hc : c = '-'
      · subst hc
        unfold keepChar keepB at hk
        rw [if_pos rfl] at hk
        rcases Bool.or_eq_true_iff.mp hk with hpw | hnw
        · unfold keepB
          rw [if_pos rfl, hpw]
          rfl
        · cases t with
          | nil => simp [optWord] at hnw
          | cons d t' =>
            have hd : isWordChar d = true := by simpa [optWord] using hnw
            rw [punctSubAux_word_head hd]
            unfold keepB
            rw [if_pos rfl]
            simp [optWord, hd]
      · unfold keepChar keepB at hk
        rw [if_neg hc] at hk
        unfold keepB
        rw [if_neg hc]
        exact hk

/-- The space collapse preserves goodness. -/
theorem goodFrom_collapseAux (l : List Char) :
    ∀ pw, goodFrom pw l = true → goodFrom pw (collapseAux l) = true := by
  induction l using collapseAux.induct with
  | case1 => intro pw h; exact h
  | case2 c => intro pw h; exact h
  | case3 c d t hws ih =>
    intro pw h
    have hcd : c.isWhitespace = true ∧ d.isWhitespace = true := by simpa using hws
    rw [collapseAux, if_pos hws]
    rw [goodFrom, Bool.and_eq_true] at h
    have h2 := h.2
    rw [goodFrom, Bool.and_eq_true] at h2
    have h3 := h2.2
    rw [ws_not_word hcd.2] at h3
    rw [goodFrom, Bool.and_eq_true]
    constructor
    · unfold keepB
      rw [if_neg (by decide : ¬(' ' = '-'))]
      decide
    · rw [show isWordChar ' ' = false by decide]
      exact ih false h3
  | case4 c d t hws ih =>
    intro pw h
    rw [collapseAux, if_neg hws]
    rw [goodFrom, Bool.and_eq_true] at h
    have htail := ih (isWordChar c) h.2
    rw [goodFrom, Bool.and_eq_true]
    refine ⟨?_, htail⟩
    by_cases hc : c = '-'
    · subst hc
      unfold keepB at h ⊢
      rw [if_pos rfl] at h ⊢
      rcases Bool.or_eq_true_iff.mp h.1 with hpw | hnw
      · rw [hpw]
        rfl
      · have hd : isWordChar d = true := by simpa [optWord] using hnw
        have hdnw : d.isWhitespace = false := by
          cases hdw : d.isWhitespace
          · rfl
          · rw [ws_not_word hdw] at hd
            exact absurd hd (by decide)
        have hhead : (collapseAux (d :: t)).head? = some d := by
          cases t with
          | nil => rfl
          | cons e t' =>
            rw [collapseAux, if_neg (by simp [hdnw])]
            rfl
        rw [hhead]
        simp [optWord, hd]
    · unfold keepB at h ⊢
      rw [if_neg hc] at h ⊢
      exact h.1

/-- The substitution scan is the identity on good strings. -/
theorem punctSubAux_of_goodFrom (l : List Char) :
    ∀ prev, goodFrom (optWord prev) l = true → punctSubAux prev l = l := by
  induction l with
  | nil => intro prev h; rfl
  | cons c t ih =>
    intro prev h
    rw [goodFrom, Bool.and_eq_true] at h
    rw [punctSubAux, if_pos (show keepChar prev c t.head? = true from h.1),
      ih (some c) h.2]

/-- Every stage's column action is the element-wise map of its row action. -/
theorem stageFun_eq_map (stopList : List (List Char)) (stemmer lem : List Char → List Char)
    (t : Stage) (col : List String) :
    stageFun stopList stemmer lem t col = col.map (rowFun stopList stemmer lem t) := by
  cases t <;> rfl

/-! Claim theorems. -/

/-- C1 counterexample: a trailing hyphen preceded by a word character is
*kept* by `remove_punctuation` (`"a-"` maps to itself), while the claim says
every trailing hyphen (no word characters on both sides) is removed. -/
theorem C1_counterexample :
    remove_punctuation "a-" = "a-" ∧ remove_punctuation "a-" ≠ "a" := by decide

/-- C1 amended: `remove_punctuation` first deletes exactly the characters
that are neither word characters (alphanumeric or underscore) nor whitespace
nor hyphens, and among hyphens exactly those with *no* word character directly
on either side in the original string — a hyphen is kept as soon as a word
character stands on at least one side, so leading or trailing hyphens attached
to a word survive; the double-space collapse then runs on the result. -/
theorem C1_amended_punctuation_characterization (s : String) :
    remove_punctuation s = ⟨collapseAux (punctSpec s.data)⟩ := by
  show (⟨collapseAux (punctSubAux none s.data)⟩ : String) = _
  rw [punctSubAux_eq_punctSpecFrom s.data none]
  rfl

/-- C2: `main` applies the transforms in the fixed order lowercase,
remove-numbers, remove-punctuation, then stopword removal only under `stop`,
then stemming only under `stem`, then lemmatization only under `lemma`; for
every flag configuration the executed stage sequence is an order-preserving
selection from that canonical order containing exactly the three mandatory
stages and the enabled optional ones, and the pipeline's effect on the column
is the left fold of those stages. -/
theorem C2_pipeline_fixed_order (f : CmdFlags) :
    List.Sublist (mainStages f)
        [Stage.lower, Stage.nums, Stage.punct, Stage.stop, Stage.stem, Stage.lemmaS]
      ∧ Stage.lower ∈ mainStages f ∧ Stage.nums ∈ mainStages f ∧ Stage.punct ∈ mainStages f
      ∧ (Stage.stop ∈ mainStages f ↔ f.stop = true)
      ∧ (Stage.stem ∈ mainStages f ↔ f.stem = true)
      ∧ (Stage.lemmaS ∈ mainStages f ↔ f.lemmaFlag = true)
      ∧ ∀ stopList stemmer lem col,
          pipeline f stopList stemmer lem col
            = (mainStages f).foldl (fun c t => stageFun stopList stemmer lem t c) col := by
  obtain ⟨s1, s2, s3⟩ := f
  cases s1 <;> cases s2 <;> cases s3 <;>
    exact ⟨by decide, by decide, by decide, by decide, by decide, by decide, by decide,
      fun stopList stemmer lem col => rfl⟩

/-- C3: requesting both `--stem` and `--lemma` makes the run fail with a
`ConfigurationError` carrying a non-zero exit status, independently of the
data, before any transform is applied (the result is the bare error, with no
processed column). -/
theorem C3_stem_lemma_conflict (f : CmdFlags) (stopList : List (List Char))
    (stemmer lem : List Char → List Char) (csv : List String)
    (hs : f.stem = true) (hl : f.lemmaFlag = true) :
    programRun f stopList stemmer lem csv = .error (.ConfigurationError 2)
      ∧ exitStatusOf (.ConfigurationError 2) ≠ 0 := by
  refine ⟨?_, by decide⟩
  simp [programRun, parse_args, hs, hl]

theorem C3_stem_lemma_conflict_witness :
    programRun ⟨false, true, true⟩ [] id id ["a row"] = .error (.ConfigurationError 2)
      ∧ exitStatusOf (.ConfigurationError 2) ≠ 0 :=
  C3_stem_lemma_conflict ⟨false, true, true⟩ [] id id ["a row"] rfl rfl

/-- C4: after the token accountant runs, the counts in the frequency map sum
to the total number of whitespace-split tokens across all rows of the column,
and the type set has exactly one element per distinct token string. -/
theorem C4_accountant_totals (col : List String) :
    sumCounts (count_types_and_tokens col).1 = (allTokens col).length
      ∧ ((count_types_and_tokens col).2).length = (allTokens col).dedup.length := by
  rw [count_types_and_tokens_eq]
  constructor
  · show sumCounts ((allTokens col).foldl bump []) = _
    rw [sumCounts_foldl_bump]
    simp [sumCounts]
  · show ((allTokens col).foldl addType []).length = _
    have hn := foldl_addType_nodup (allTokens col) [] List.nodup_nil
    have hf : ((allTokens col).foldl addType []).toFinset = (allTokens col).toFinset := by
      rw [foldl_addType_toFinset]
      simp
    rw [← List.toFinset_card_of_nodup hn, hf, List.card_toFinset]

/-- C5: the bag-of-words table, computed independently by whole-column
tokenize + count, assigns every entry the same count the accountant's
frequency map holds for that token, its counts sum to the accountant's total
token count, and its rows are ordered by non-increasing count. -/
theorem C5_bow_matches_accountant (col : List String) :
    (∀ p ∈ create_bow col, findCount (count_types_and_tokens col).1 p.1 = some p.2)
      ∧ sumCounts (create_bow col) = sumCounts (count_types_and_tokens col).1
      ∧ List.Chain' (fun a b => b.2 ≤ a.2) (create_bow col) := by
  have hacc : (count_types_and_tokens col).1 = (allTokens col).foldl bump [] := by
    rw [count_types_and_tokens_eq]
  have hperm : (create_bow col).Perm
      ((allTokens col).dedup.map (fun k => (k, countOcc (allTokens col) k))) :=
    sortDesc_perm _
  refine ⟨?_, ?_, sortDesc_chain' _⟩
  · intro p hp
    have hp2 : p ∈ (allTokens col).dedup.map (fun k => (k, countOcc (allTokens col) k)) :=
      hperm.mem_iff.mp hp
    obtain ⟨k, hk, rfl⟩ := List.mem_map.mp hp2
    have hmem : k ∈ allTokens col := List.mem_dedup.mp hk
    rw [hacc, findCount_foldl_bump (allTokens col) [] k]
    simp [findCount, hmem]
  · have h1 : sumCounts (create_bow col)
        = ((allTokens col).dedup.map (fun k => countOcc (allTokens col) k)).sum := by
      unfold sumCounts
      rw [List.Perm.sum_eq (hperm.map (fun p => p.2)), List.map_map]
      rfl
    rw [hacc, sumCounts_foldl_bump, h1, sum_map_countOcc_dedup]
    simp [sumCounts]

theorem C5_bow_matches_accountant_witness :
    findCount (count_types_and_tokens ["b a", "a"]).1 (['a'] : List Char) = some 2 :=
  (C5_bow_matches_accountant ["b a", "a"]).1 (['a'], 2) (by decide)

/-- C6: the output of `remove_numbers` contains no decimal digit characters. -/
theorem C6_remove_numbers_no_digits (s : String) :
    (remove_numbers s).data.all (fun c => !c.isDigit) = true := by
  have h : (remove_numbers s).data = s.data.filter (fun c => !c.isDigit) := rfl
  rw [h]
  simp [List.all_eq_true, List.mem_filter]

/-- C7 counterexample: `remove_punctuation` is not idempotent on every input:
on `"a    b"` (four spaces) one application leaves `"a  b"` and a second
application shortens it further to `"a b"`, because the single-pass collapse
only halves whitespace runs. -/
theorem C7_counterexample :
    remove_punctuation (remove_punctuation "a    b") ≠ remove_punctuation "a    b" := by
  decide

/-- C7 amended: applying `lowercase` twice yields the same result as applying
it once, for every input; applying `remove_punctuation` twice yields the same
result as applying it once for exactly the inputs on which its output carries
no two consecutive whitespace characters (already-clean text) — the
substitution pass is always the identity on the first application's output,
so only a leftover double space can make a second application differ. -/
theorem C7_amended_idempotence :
    (∀ s : String, lowercase (lowercase s) = lowercase s)
      ∧ ∀ s : String, noDoubleWS (remove_punctuation s).data = true →
          remove_punctuation (remove_punctuation s) = remove_punctuation s := by
  constructor
  · intro s
    show (⟨(s.data.map Char.toLower).map Char.toLower⟩ : String) = _
    rw [List.map_map]
    have hcomp : Char.toLower ∘ Char.toLower = Char.toLower := funext toLower_toLower
    rw [hcomp]
    rfl
  · intro s h
    have hgood : goodFrom false ((remove_punctuation s).data) = true :=
      goodFrom_collapseAux (punctSubAux none s.data) false (goodFrom_punctSubAux s.data none)
    have hsub : punctSubAux none ((remove_punctuation s).data) = (remove_punctuation s).data :=
      punctSubAux_of_goodFrom _ none hgood
    show (⟨collapseAux (punctSubAux none (remove_punctuation s).data)⟩ : String) = _
    rw [hsub, collapseAux_of_noDouble _ h]

theorem C7_amended_idempotence_witness :
    lowercase (lowercase "Ab C") = lowercase "Ab C"
      ∧ remove_punctuation (remove_punctuation "it, is. fine")
          = remove_punctuation "it, is. fine" :=
  ⟨C7_amended_idempotence.1 "Ab C", C7_amended_idempotence.2 "it, is. fine" (by decide)⟩

/-- C8 counterexample: the mandatory stages on `"AD 1530-1"` do not produce
`"ad"` (the run keeps a trailing space). -/
theorem C8_counterexample :
    pipeline ⟨false, false, false⟩ [] id id ["AD 1530-1"] ≠ ["ad"] := by decide

/-- C8 amended: the mandatory stages (lowercase, then remove-numbers, then
remove-punctuation) on `"AD 1530-1"` yield exactly `"ad "`, with a trailing
space left by the removed hyphen group. -/
theorem C8_amended_ad_trailing_space (stopList : List (List Char))
    (stemmer lem : List Char → List Char) :
    pipeline ⟨false, false, false⟩ stopList stemmer lem ["AD 1530-1"] = ["ad "] := rfl

/-- C9: every pipeline transform is an element-wise map over the text column:
it preserves the length, and the row at each index of the output is a function
of the row at the same index of the input alone. -/
theorem C9_transforms_rowwise (stopList : List (List Char))
    (stemmer lem : List Char → List Char) (t : Stage) (col : List String) :
    (stageFun stopList stemmer lem t col).length = col.length
      ∧ ∀ i : Nat, (stageFun stopList stemmer lem t col)[i]?
          = col[i]?.map (rowFun stopList stemmer lem t) := by
  rw [stageFun_eq_map]
  exact ⟨List.length_map col _, fun i => List.getElem?_map _ col i⟩

/-- C10: `remove_punctuation` preserves underscores: the output contains
exactly as many underscore characters as the input. -/
theorem C10_underscore_preserved (s : String) :
    (remove_punctuation s).data.count '_' = s.data.count '_' := by
  have h : (remove_punctuation s).data = collapseAux (punctSubAux none s.data) := rfl
  rw [h, collapseAux_count_underscore, punctSubAux_count_underscore]

end Braid
